import Mathlib

/-!
Verification of the SplitCycle winner-determination core
(`splitcycle/core.py`): the strong-path reachability oracles
(bidirectional breadth-first and depth-first variants), the
per-candidate defeat evaluator, the partition scheduler, the margin
matrix builder and the election facade.

Machine integers of the source are embedded as `Int` (the margins are
exact signed counts of ballots); a margin matrix over `n` candidates is
a function `Fin n → Fin n → Int`; the raw (pre-validation) matrix
argument of `splitcycle` is a `Mat2` carrying explicit dimensions.
The `numpy` boolean visited arrays become `Finset (Fin n)`, and the
`deque` queues become lists (head = front, append at the tail).
-/

namespace SplitCycle

/-! ### Thresholded edge relation and declarative strong paths -/

/-- Edge relation of the weighted majority graph at threshold `k`:
there is an edge `u → v` iff `matrix[u, v] >= k`
(the condition `weight >= k` of both oracles in `core.py`). -/
def sedge {n : ℕ} (M : Fin n → Fin n → Int) (k : Int) (u v : Fin n) : Prop :=
  k ≤ M u v

instance {n : ℕ} (M : Fin n → Fin n → Int) (k : Int) (u v : Fin n) :
    Decidable (sedge M k u v) := by
  unfold sedge; infer_instance

/-- Declarative meaning of a strong path: a directed path from `s` to
`t` every edge of which has weight at least `k` (the documented
contract of `has_strong_path` and `has_strong_path_dfs`). -/
def StrongPath {n : ℕ} (M : Fin n → Fin n → Int) (k : Int) (s t : Fin n) : Prop :=
  Relation.ReflTransGen (sedge M k) s t

/-- Transposed matrix: `transp M i j = M j i`; the backward frontier of
the bidirectional search follows `matrix[neighbor, ct] >= k`, i.e. the
edges of the transposed matrix. -/
def transp {n : ℕ} (M : Fin n → Fin n → Int) : Fin n → Fin n → Int :=
  fun i j => M j i

/-! ### Bidirectional breadth-first oracle (`has_strong_path`) -/

/-- One frontier-expansion loop of the bidirectional BFS of
`has_strong_path` (`core.py` lines 76-82 resp. 86-92): scan the
neighbor list of the dequeued node `c`; on a thresholded neighbor
already visited by the opposite search (`oV`) return `none`
(the Python `return True`); otherwise mark-and-enqueue unvisited
thresholded neighbors, returning the updated visited set and queue. -/
def stepF {n : ℕ} (M : Fin n → Fin n → Int) (k : Int) (c : Fin n) (oV : Finset (Fin n)) :
    List (Fin n) → Finset (Fin n) → List (Fin n) → Option (Finset (Fin n) × List (Fin n))
  | [], sV, sq => some (sV, sq)
  | v :: rest, sV, sq =>
    if k ≤ M c v then
      if v ∈ oV then none
      else if v ∈ sV then stepF M k c oV rest sV sq
      else stepF M k c oV rest (insert v sV) (sq ++ [v])
    else stepF M k c oV rest sV sq

/-- The `while sq and tq` loop of `has_strong_path`: each iteration
pops the front of the source queue and expands it forward (rows of
`M`), then pops the front of the target queue and expands it backward
(columns of `M`, i.e. rows of `transp M`, against the just-updated
forward visited set), as in `core.py` lines 73-92.  `fuel` bounds the
number of iterations; `has_strong_path` supplies enough fuel for the
loop to run to its genuine termination (each iteration removes one
element from each queue and every enqueue marks a fresh node). -/
def bfsLoop {n : ℕ} (M : Fin n → Fin n → Int) (k : Int) :
    ℕ → List (Fin n) → List (Fin n) → Finset (Fin n) → Finset (Fin n) → Bool
  | 0, _, _, _, _ => false
  | _ + 1, [], _, _, _ => false
  | _ + 1, _ :: _, [], _, _ => false
  | fuel + 1, cs :: sq1, ct :: tq1, sV, tV =>
    match stepF M k cs tV (List.finRange n) sV sq1 with
    | none => true
    | some (sV1, sqN) =>
      match stepF (transp M) k ct sV1 (List.finRange n) tV tq1 with
      | none => true
      | some (tV1, tqN) => bfsLoop M k fuel sqN tqN sV1 tV1

/-- `has_strong_path(matrix, source, target, k)` (`core.py` 51-94):
`True` immediately when `source == target`, otherwise the
bidirectional breadth-first search seeded with
`s_visited = {source}`, `t_visited = {target}`, `sq = [source]`,
`tq = [target]`. -/
def has_strong_path {n : ℕ} (M : Fin n → Fin n → Int) (source target : Fin n)
    (k : Int) : Bool :=
  if source = target then true
  else bfsLoop M k (2 * n + 2) [source] [target] {source} {target}

/-! ### Depth-first oracle (`has_strong_path_dfs`) -/

/-- The `for neighbor, weight in enumerate(matrix[node, :])` loop of
the recursive `dfs` (`core.py` 125-128): recurse (through `dfsA`, the
one-level-deeper search) into every thresholded unvisited neighbor,
propagating the mutated visited set, and stop at the first `True`. -/
def dfsList {n : ℕ} (M : Fin n → Fin n → Int) (k : Int)
    (dfsA : Fin n → Finset (Fin n) → Bool × Finset (Fin n)) (node : Fin n) :
    List (Fin n) → Finset (Fin n) → Bool × Finset (Fin n)
  | [], vis => (false, vis)
  | v :: rest, vis =>
    if k ≤ M node v ∧ v ∉ vis then
      match dfsA v vis with
      | (true, vis1) => (true, vis1)
      | (false, vis1) => dfsList M k dfsA node rest vis1
    else dfsList M k dfsA node rest vis

/-- The recursive `dfs(node)` of `has_strong_path_dfs` (`core.py`
112-130): succeed when `node == target`, otherwise mark `node`
visited and scan its neighbors.  `fuel` bounds the recursion depth;
each level marks a previously unvisited node, so depth `n + 1`
suffices. -/
def dfsAux {n : ℕ} (M : Fin n → Fin n → Int) (k : Int) (target : Fin n) :
    ℕ → Fin n → Finset (Fin n) → Bool × Finset (Fin n)
  | 0, _, vis => (false, vis)
  | fuel + 1, node, vis =>
    if node = target then (true, vis)
    else dfsList M k (dfsAux M k target fuel) node (List.finRange n) (insert node vis)

/-- `has_strong_path_dfs(matrix, source, target, k)` (`core.py`
96-132): run `dfs(source)` with an initially empty visited set. -/
def has_strong_path_dfs {n : ℕ} (M : Fin n → Fin n → Int) (source target : Fin n)
    (k : Int) : Bool :=
  (dfsAux M k target (n + 1) source ∅).1

/-! ### Defeat evaluator (`is_splitcycle_winner`, `core.py` 134-167) -/

/-- `finder = has_strong_path_dfs if dfs else has_strong_path`
(`core.py` line 136). -/
def finder {n : ℕ} (dfs : Bool) :
    (Fin n → Fin n → Int) → Fin n → Fin n → Int → Bool :=
  if dfs then has_strong_path_dfs else has_strong_path

/-- The disqualification test of the inner `for b in all_candidates`
loop (`core.py` 160-165): `margins[a, b] < 0 and not
finder(margins, a, b, -margins[a, b])` for some `b`.  The loop only
ever discards `a` once and breaks, so it amounts to this existence
check over `all_candidates`. -/
def loses_out {n : ℕ} (M : Fin n → Fin n → Int) (dfs : Bool)
    (allc : List (Fin n)) (a : Fin n) : Bool :=
  allc.any fun b => decide (M a b < 0) && ! finder dfs M a b (-(M a b))

/-- `is_splitcycle_winner(work)` with
`work = (all_candidates, dfs, considered_candidates, margins)`
(`core.py` 134-167): start from `winners = set(considered_candidates)`
and, for each considered `a`, discard `a` on the first disqualifying
`b`. -/
def is_splitcycle_winner {n : ℕ} (allc : List (Fin n)) (dfs : Bool)
    (considered : List (Fin n)) (M : Fin n → Fin n → Int) : Finset (Fin n) :=
  considered.foldl
    (fun winners a => if loses_out M dfs allc a then winners.erase a else winners)
    considered.toFinset

/-! ### Scheduler (`splitcycle`, `core.py` 170-241) -/

/-- `pool_sizes` (`core.py` 222-225): distribute `n` candidates over
`cores` workers, the first `n % cores` workers getting one extra. -/
def pool_sizes (n cores : ℕ) : List ℕ :=
  (List.range cores).map fun i =>
    if i < n % cores then n / cores + 1 else n / cores

/-- The work-partitioning loop (`core.py` 228-232): successive pieces
`range(start, start + size)` of the list `l`, realized as
take/drop slices so that slicing `List.finRange n` with the pool sizes
yields exactly the ranges the source builds. -/
def chunks {α : Type} (l : List α) : List ℕ → List (List α)
  | [] => []
  | size :: rest => l.take size :: chunks (l.drop size) rest

/-- The computation of `splitcycle` after input validation (`core.py`
213-241): default the candidates to `range(n)`, partition `range(n)`
into per-core pieces, evaluate `is_splitcycle_winner` on each work
tuple `(candidates, dfs, piece, margins)`, union the resulting winner
sets and sort.  `cores` stands for `os.cpu_count()` (always at least
one). -/
def splitcycleCore {n : ℕ} (M : Fin n → Fin n → Int)
    (candidates : Option (List (Fin n))) (dfs : Bool) (cores : ℕ) : List (Fin n) :=
  let cand := candidates.getD (List.finRange n)
  let work := chunks (List.finRange n) (pool_sizes n cores)
  let winners := (work.map fun piece => is_splitcycle_winner cand dfs piece M).foldl
    (· ∪ ·) ∅
  -- `sorted(winners)`: the members of the winner set in ascending
  -- index order, i.e. the ascending enumeration of `Fin n` restricted
  -- to the set
  (List.finRange n).filter (· ∈ winners)

/-! ### Input validation (`core.py` 10-36 and 191-211)

A raw (pre-validation) matrix argument carries its dimensions
explicitly; entries are exact integers, so `np.allclose` is exact
equality.  A value of `Mat2` is 2-dimensional by construction (the
`len(matrix.shape) == 2` conjunct of `is_square` cannot fail in this
embedding). -/

/-- Raw 2-dimensional matrix with explicit dimensions; entries outside
the bounds are irrelevant (never read). -/
structure Mat2 where
  rows : ℕ
  cols : ℕ
  entry : ℕ → ℕ → Int

/-- `is_square` (`core.py` 10-12). -/
def is_square (m : Mat2) : Bool := decide (m.rows = m.cols)

/-- `has_reverse_diagonal_symmetry` (`core.py` 15-20):
`A[i, j] == -A[j, i]` elementwise (checked only on square matrices,
mirroring the short-circuit before `np.allclose(matrix, -matrix.T)`). -/
def has_reverse_diagonal_symmetry (m : Mat2) : Bool :=
  is_square m &&
    decide (∀ i < m.rows, ∀ j < m.cols, m.entry i j = -(m.entry j i))

/-- `has_zero_diagonal` (`core.py` 23-28). -/
def has_zero_diagonal (m : Mat2) : Bool :=
  is_square m && decide (∀ i < m.rows, m.entry i i = 0)

/-- `is_margin_like` (`core.py` 31-36). -/
def is_margin_like (m : Mat2) : Bool :=
  has_reverse_diagonal_symmetry m && has_zero_diagonal m

/-- View of a validated matrix over `Fin m.rows` (the algorithm indexes
only with `0 <= i < n = margins.shape[0]`). -/
def toCore (m : Mat2) : Fin m.rows → Fin m.rows → Int :=
  fun i j => m.entry i j

/-- `splitcycle(margins, candidates, dfs)` (`core.py` 170-241): raise
`TypeError` when the margins are not margin-like, otherwise run the
partitioned winner computation. -/
def splitcycle (m : Mat2) (candidates : Option (List (Fin m.rows)))
    (dfs : Bool) (cores : ℕ) : Except String (List (Fin m.rows)) :=
  if is_margin_like m then
    .ok (splitcycleCore (toCore m) candidates dfs cores)
  else
    .error "margins must be a square matrix with diagonal symmetry and zero diagonal entries"

/-! ### Margin matrix builder (`margins_from_ballots`, `core.py` 244-258) -/

/-- `margins_from_ballots(ballots)`: each ballot contributes, at entry
`(i, j)`, `+1` when `comp = ballot[i] - ballot[j] < 0`, `-1` when
`comp > 0` and `0` otherwise; the loop accumulates these summands. -/
def margins_from_ballots {bm bn : ℕ} (ballots : Fin bm → Fin bn → Int) :
    Fin bn → Fin bn → Int :=
  fun i j =>
    ∑ b : Fin bm,
      if ballots b i - ballots b j < 0 then 1
      else if 0 < ballots b i - ballots b j then -1
      else 0

/-- The ballot-derived margin matrix as a raw matrix
(`n_candidates × n_candidates`, `core.py` 250-251). -/
def marginsMat {bm bn : ℕ} (ballots : Fin bm → Fin bn → Int) : Mat2 :=
  ⟨bn, bn, fun i j =>
    if h : i < bn ∧ j < bn then margins_from_ballots ballots ⟨i, h.1⟩ ⟨j, h.2⟩
    else 0⟩

/-! ### Election facade (`elect`, `core.py` 261-303) -/

/-- Modelled from the spec: `splitcycle.errors.not_enough_candidates`
(module `errors.py`, absent from the sources) raises the
CandidateCountMismatch condition; embedded as this error value. -/
def not_enough_candidates {β : Type} : Except String β :=
  .error "not enough candidates"

/-- `elect(ballots, candidates, dfs)` (`core.py` 261-303): fail when
the candidate axis of the ballots differs from the number of candidate
names (before building any margins), otherwise build the margins, run
`splitcycle`, and map winner indices to names (`candidates[i]`). -/
def elect {α : Type} [Inhabited α] {bm bn : ℕ} (ballots : Fin bm → Fin bn → Int)
    (names : List α) (dfs : Bool) (cores : ℕ) : Except String (List α) :=
  if bn = names.length then
    (splitcycle (marginsMat ballots) none dfs cores).map fun ws =>
      ws.map fun i => names.getD i.val default
  else not_enough_candidates

/-- Margin-likeness of a validated matrix (the two pointwise halves of
`is_margin_like`, at the `Fin n` level). -/
def is_margin_likeP {n : ℕ} (M : Fin n → Fin n → Int) : Prop :=
  (∀ i j, M i j = - M j i) ∧ ∀ i, M i i = 0

/-! ### Concrete instances used to exercise the theorems -/

/-- Two-candidate margin matrix: candidate 1 beats candidate 0 by one
ballot. -/
def twoCandM : Fin 2 → Fin 2 → Int := ![![0, -1], ![1, 0]]

/-- Two-candidate margin matrix whose Condorcet winner is candidate 0. -/
def condM : Fin 2 → Fin 2 → Int := ![![0, 1], ![-1, 0]]

/-- A one-ballot election over two candidates. -/
def exBallots : Fin 1 → Fin 2 → Int := ![![1, 2]]

/-! ### Closed-set lemmas for reachability -/

/-- Any set closed under the edge relation and containing `a` contains
everything reachable from `a`. -/
lemma mem_of_reach_closed {n : ℕ} {E : Fin n → Fin n → Prop} {S : Finset (Fin n)}
    (hcl : ∀ u ∈ S, ∀ v, E u v → v ∈ S) {a b : Fin n}
    (hab : Relation.ReflTransGen E a b) (ha : a ∈ S) : b ∈ S := by
  induction hab with
  | refl => exact ha
  | tail _ h ih => exact hcl _ ih _ h

/-- A strong path for the transposed matrix is a reversed strong path. -/
lemma strongPath_transp {n : ℕ} {M : Fin n → Fin n → Int} {k : Int} {a b : Fin n} :
    StrongPath (transp M) k a b ↔ StrongPath M k b a :=
  Relation.reflTransGen_swap

/-! ### Facts about one BFS frontier expansion (`stepF`) -/

section StepF

variable {n : ℕ} {M : Fin n → Fin n → Int} {k : Int} {c : Fin n} {oV : Finset (Fin n)}

lemma stepF_some_mono :
    ∀ {l : List (Fin n)} {sV sq sV1 sq1},
      stepF M k c oV l sV sq = some (sV1, sq1) → sV ⊆ sV1 := by
  intro l
  induction l with
  | nil =>
    intro sV sq sV1 sq1 h
    simp only [stepF, Option.some.injEq, Prod.mk.injEq] at h
    exact h.1 ▸ Finset.Subset.refl _
  | cons v rest ih =>
    intro sV sq sV1 sq1 h
    simp only [stepF] at h
    split at h
    · split at h
      · exact absurd h (by simp)
      · split at h
        · exact ih h
        · exact Finset.Subset.trans (Finset.subset_insert _ _) (ih h)
    · exact ih h

lemma stepF_some_measure :
    ∀ {l : List (Fin n)} {sV sq sV1 sq1},
      stepF M k c oV l sV sq = some (sV1, sq1) →
      sq1.length + sV.card = sq.length + sV1.card := by
  intro l
  induction l with
  | nil =>
    intro sV sq sV1 sq1 h
    simp only [stepF, Option.some.injEq, Prod.mk.injEq] at h
    rw [h.1, h.2]
  | cons v rest ih =>
    intro sV sq sV1 sq1 h
    simp only [stepF] at h
    split at h
    · split at h
      · exact absurd h (by simp)
      · split at h
        · exact ih h
        · rename_i hnotV
          have hcard : (insert v sV).card = sV.card + 1 :=
            Finset.card_insert_of_not_mem hnotV
          have := ih h
          simp only [List.length_append, List.length_singleton] at this
          omega
    · exact ih h

lemma stepF_some_qsub :
    ∀ {l : List (Fin n)} {sV sq sV1 sq1},
      stepF M k c oV l sV sq = some (sV1, sq1) → ∀ x ∈ sq, x ∈ sq1 := by
  intro l
  induction l with
  | nil =>
    intro sV sq sV1 sq1 h
    simp only [stepF, Option.some.injEq, Prod.mk.injEq] at h
    exact fun x hx => h.2 ▸ hx
  | cons v rest ih =>
    intro sV sq sV1 sq1 h
    simp only [stepF] at h
    split at h
    · split at h
      · exact absurd h (by simp)
      · split at h
        · exact ih h
        · exact fun x hx => ih h x (by simp [hx])
    · exact ih h

lemma stepF_some_qmem :
    ∀ {l : List (Fin n)} {sV sq sV1 sq1},
      stepF M k c oV l sV sq = some (sV1, sq1) →
      ∀ x ∈ sq1, x ∈ sq ∨ x ∈ sV1 := by
  intro l
  induction l with
  | nil =>
    intro sV sq sV1 sq1 h
    simp only [stepF, Option.some.injEq, Prod.mk.injEq] at h
    exact fun x hx => Or.inl (h.2 ▸ hx)
  | cons v rest ih =>
    intro sV sq sV1 sq1 h
    simp only [stepF] at h
    split at h
    · split at h
      · exact absurd h (by simp)
      · split at h
        · exact ih h
        · intro x hx
          rcases ih h x hx with hx' | hx'
          · rcases List.mem_append.mp hx' with hx'' | hx''
            · exact Or.inl hx''
            · right
              have : x = v := by simpa using hx''
              exact this ▸ stepF_some_mono h (Finset.mem_insert_self _ _)
          · exact Or.inr hx'
    · exact ih h

lemma stepF_some_vmem :
    ∀ {l : List (Fin n)} {sV sq sV1 sq1},
      stepF M k c oV l sV sq = some (sV1, sq1) →
      ∀ x ∈ sV1, x ∈ sV ∨ (k ≤ M c x ∧ x ∉ oV ∧ x ∈ sq1) := by
  intro l
  induction l with
  | nil =>
    intro sV sq sV1 sq1 h
    simp only [stepF, Option.some.injEq, Prod.mk.injEq] at h
    exact fun x hx => Or.inl (h.1 ▸ hx)
  | cons v rest ih =>
    intro sV sq sV1 sq1 h
    simp only [stepF] at h
    split at h
    · split at h
      · exact absurd h (by simp)
      · split at h
        · exact ih h
        · rename_i hkv hvo _
          intro x hx
          rcases ih h x hx with hx' | hx'
          · rcases Finset.mem_insert.mp hx' with hx'' | hx''
            · subst hx''
              exact Or.inr ⟨hkv, hvo, stepF_some_qsub h _ (by simp)⟩
            · exact Or.inl hx''
          · exact Or.inr hx'
    · exact ih h

lemma stepF_some_closure :
    ∀ {l : List (Fin n)} {sV sq sV1 sq1},
      stepF M k c oV l sV sq = some (sV1, sq1) →
      ∀ v ∈ l, k ≤ M c v → v ∈ sV1 := by
  intro l
  induction l with
  | nil => intro _ _ _ _ _ v hv; exact absurd hv (by simp)
  | cons w rest ih =>
    intro sV sq sV1 sq1 h v hv hkv
    simp only [stepF] at h
    rcases List.mem_cons.mp hv with rfl | hv'
    · split at h
      · split at h
        · exact absurd h (by simp)
        · split at h
          · rename_i hvS
            exact stepF_some_mono h hvS
          · exact stepF_some_mono h (Finset.mem_insert_self _ _)
      · exact absurd hkv (by assumption)
    · split at h
      · split at h
        · exact absurd h (by simp)
        · split at h
          · exact ih h v hv' hkv
          · exact ih h v hv' hkv
      · exact ih h v hv' hkv

lemma stepF_none_meet :
    ∀ {l : List (Fin n)} {sV sq},
      stepF M k c oV l sV sq = none → ∃ v, k ≤ M c v ∧ v ∈ oV := by
  intro l
  induction l with
  | nil => intro sV sq h; exact absurd h (by simp [stepF])
  | cons v rest ih =>
    intro sV sq h
    simp only [stepF] at h
    split at h
    · split at h
      · exact ⟨v, by assumption, by assumption⟩
      · split at h
        · exact ih h
        · exact ih h
    · exact ih h

end StepF

/-! ### Correctness of the bidirectional BFS -/

/-- Invariant of one search frontier: the seed is visited, every queued
node is visited, every visited node is reachable from the seed, and
every visited node no longer in the queue has all its thresholded
successors visited.  The backward frontier satisfies `FrontierOK` for
the transposed matrix. -/
structure FrontierOK {n : ℕ} (M : Fin n → Fin n → Int) (k : Int) (s : Fin n)
    (sq : List (Fin n)) (sV : Finset (Fin n)) : Prop where
  seed_mem : s ∈ sV
  queue_vis : ∀ x ∈ sq, x ∈ sV
  reach : ∀ x ∈ sV, StrongPath M k s x
  closure : ∀ u ∈ sV, u ∉ sq → ∀ v, k ≤ M u v → v ∈ sV

/-- Reachability from the seed extends through one frontier expansion. -/
lemma stepF_reach {n : ℕ} {M : Fin n → Fin n → Int} {k : Int} {s c : Fin n}
    {oV : Finset (Fin n)} {l : List (Fin n)} {sV sq sV1 sq1}
    (h : stepF M k c oV l sV sq = some (sV1, sq1))
    (hc : StrongPath M k s c) (hreach : ∀ x ∈ sV, StrongPath M k s x) :
    ∀ x ∈ sV1, StrongPath M k s x := by
  intro x hx
  rcases stepF_some_vmem h x hx with hx' | ⟨he, _, _⟩
  · exact hreach x hx'
  · exact Relation.ReflTransGen.tail hc he

/-- If a frontier with an empty queue never met the opposite visited
set, its visited set is closed, so nothing outside it is reachable
from the seed. -/
lemma FrontierOK.not_reach_of_empty {n : ℕ} {M : Fin n → Fin n → Int} {k : Int}
    {s : Fin n} {sV : Finset (Fin n)} (hF : FrontierOK M k s [] sV) {t : Fin n}
    (ht : t ∉ sV) : ¬ StrongPath M k s t := fun hsp =>
  ht (mem_of_reach_closed (fun u hu v hv => hF.closure u hu (by simp) v hv)
    hsp hF.seed_mem)

/-- Main loop invariant theorem: with sufficient fuel and both
frontiers well formed (and no seed visited by the opposite search),
`bfsLoop` decides the existence of a strong path. -/
lemma bfsLoop_eq_true_iff {n : ℕ} (M : Fin n → Fin n → Int) (k : Int) (s t : Fin n) :
    ∀ (fuel : ℕ) (sq tq : List (Fin n)) (sV tV : Finset (Fin n)),
      sq.length + (n - sV.card) + (tq.length + (n - tV.card)) ≤ fuel →
      FrontierOK M k s sq sV → FrontierOK (transp M) k t tq tV →
      t ∉ sV → s ∉ tV →
      (bfsLoop M k fuel sq tq sV tV = true ↔ StrongPath M k s t) := by
  intro fuel
  induction fuel with
  | zero =>
    intro sq tq sV tV hfuel hF hB ht hs
    have hsq : sq = [] := List.length_eq_zero.mp (by omega)
    subst hsq
    simp only [bfsLoop, Bool.false_eq_true, false_iff]
    exact hF.not_reach_of_empty ht
  | succ fuel ih =>
    intro sq tq sV tV hfuel hF hB ht hs
    match sq, tq with
    | [], tq =>
      simp only [bfsLoop, Bool.false_eq_true, false_iff]
      exact hF.not_reach_of_empty ht
    | cs :: sq1, [] =>
      simp only [bfsLoop, Bool.false_eq_true, false_iff]
      intro hsp
      exact hB.not_reach_of_empty hs (strongPath_transp.mpr hsp)
    | cs :: sq1, ct :: tq1 =>
      have hcs : cs ∈ sV := hF.queue_vis cs (by simp)
      have hct : ct ∈ tV := hB.queue_vis ct (by simp)
      simp only [bfsLoop]
      rcases h1 : stepF M k cs tV (List.finRange n) sV sq1 with _ | ⟨sV1, sqN⟩
      · simp only [h1, true_iff]
        obtain ⟨v, hv, hvT⟩ := stepF_none_meet h1
        exact Relation.ReflTransGen.trans (hF.reach cs hcs)
          (Relation.ReflTransGen.head hv (strongPath_transp.mp (hB.reach v hvT)))
      · have hreach1 : ∀ x ∈ sV1, StrongPath M k s x :=
          stepF_reach h1 (hF.reach cs hcs) hF.reach
        rcases h2 : stepF (transp M) k ct sV1 (List.finRange n) tV tq1 with _ | ⟨tV1, tqN⟩
        · simp only [h1, h2, true_iff]
          obtain ⟨v, hv, hvS⟩ := stepF_none_meet h2
          exact Relation.ReflTransGen.trans (hreach1 v hvS)
            (Relation.ReflTransGen.head hv (strongPath_transp.mp (hB.reach ct hct)))
        · -- both expansions completed: recurse
          have hsub1 : sV ⊆ sV1 := stepF_some_mono h1
          have hsub2 : tV ⊆ tV1 := stepF_some_mono h2
          have hF1 : FrontierOK M k s sqN sV1 := by
            refine ⟨hsub1 hF.seed_mem, ?_, hreach1, ?_⟩
            · intro x hx
              rcases stepF_some_qmem h1 x hx with hx' | hx'
              · exact hsub1 (hF.queue_vis x (by simp [hx']))
              · exact hx'
            · intro u hu hunq v hv
              rcases stepF_some_vmem h1 u hu with hu' | ⟨_, _, huq⟩
              · by_cases hcseq : u = cs
                · subst hcseq
                  exact stepF_some_closure h1 v (List.mem_finRange v) hv
                · have : u ∉ sq1 := fun hq => hunq (stepF_some_qsub h1 u hq)
                  exact hsub1 (hF.closure u hu' (by simp [hcseq, this]) v hv)
              · exact absurd huq hunq
          have hB1 : FrontierOK (transp M) k t tqN tV1 := by
            refine ⟨hsub2 hB.seed_mem, ?_, ?_, ?_⟩
            · intro x hx
              rcases stepF_some_qmem h2 x hx with hx' | hx'
              · exact hsub2 (hB.queue_vis x (by simp [hx']))
              · exact hx'
            · exact stepF_reach h2 (hB.reach ct hct) hB.reach
            · intro u hu hunq v hv
              rcases stepF_some_vmem h2 u hu with hu' | ⟨_, _, huq⟩
              · by_cases hcteq : u = ct
                · subst hcteq
                  exact stepF_some_closure h2 v (List.mem_finRange v) hv
                · have : u ∉ tq1 := fun hq => hunq (stepF_some_qsub h2 u hq)
                  exact hsub2 (hB.closure u hu' (by simp [hcteq, this]) v hv)
              · exact absurd huq hunq
          have ht1 : t ∉ sV1 := by
            intro hmem
            rcases stepF_some_vmem h1 t hmem with h' | ⟨_, h', _⟩
            · exact ht h'
            · exact h' hB.seed_mem
          have hs1 : s ∉ tV1 := by
            intro hmem
            rcases stepF_some_vmem h2 s hmem with h' | ⟨_, h', _⟩
            · exact hs h'
            · exact h' (hsub1 hF.seed_mem)
          have hm1 := stepF_some_measure h1
          have hm2 := stepF_some_measure h2
          have hc1 : sV1.card ≤ n := le_trans (Finset.card_le_univ _) (by simp)
          have hc2 : tV1.card ≤ n := le_trans (Finset.card_le_univ _) (by simp)
          have hcv : sV.card ≤ sV1.card := Finset.card_le_card hsub1
          have hcv2 : tV.card ≤ tV1.card := Finset.card_le_card hsub2
          simp only [h1, h2]
          refine ih sqN tqN sV1 tV1 ?_ hF1 hB1 ht1 hs1
          simp only [List.length_cons] at hfuel
          omega

/-- The BFS oracle decides strong-path existence. -/
theorem has_strong_path_iff {n : ℕ} (M : Fin n → Fin n → Int) (s t : Fin n) (k : Int) :
    has_strong_path M s t k = true ↔ StrongPath M k s t := by
  unfold has_strong_path
  by_cases hst : s = t
  · subst hst
    rw [if_pos rfl]
    exact iff_of_true rfl Relation.ReflTransGen.refl
  · rw [if_neg hst]
    have hF : FrontierOK M k s [s] {s} := by
      refine ⟨by simp, by simp, ?_, ?_⟩
      · intro x hx
        rw [Finset.mem_singleton] at hx
        exact hx ▸ Relation.ReflTransGen.refl
      · intro u hu hq
        rw [Finset.mem_singleton] at hu
        exact absurd (by simp [hu]) hq
    have hB : FrontierOK (transp M) k t [t] {t} := by
      refine ⟨by simp, by simp, ?_, ?_⟩
      · intro x hx
        rw [Finset.mem_singleton] at hx
        exact hx ▸ Relation.ReflTransGen.refl
      · intro u hu hq
        rw [Finset.mem_singleton] at hu
        exact absurd (by simp [hu]) hq
    refine bfsLoop_eq_true_iff M k s t (2 * n + 2) [s] [t] {s} {t} ?_ hF hB
      (by simp [Ne.symm hst]) (by simp [hst])
    simp only [List.length_singleton, Finset.card_singleton]
    omega

/-! ### Correctness of the depth-first search -/

section Dfs

variable {n : ℕ} {M : Fin n → Fin n → Int} {k : Int} {t : Fin n}

/-- Soundness: a `true` answer of the DFS exhibits a strong path. -/
lemma dfsAux_fst_true :
    ∀ (fuel : ℕ) (node : Fin n) (vis : Finset (Fin n)) {vis1},
      dfsAux M k t fuel node vis = (true, vis1) → StrongPath M k node t := by
  intro fuel
  induction fuel with
  | zero => intro node vis vis1 h; exact absurd h (by simp [dfsAux])
  | succ fuel ih =>
    intro node vis vis1 h
    simp only [dfsAux] at h
    split at h
    · rename_i heq
      exact heq ▸ Relation.ReflTransGen.refl
    · -- trace the neighbor loop
      rename_i hne
      generalize insert node vis = vis0 at h
      generalize List.finRange n = l at h
      induction l generalizing vis0 with
      | nil => exact absurd h (by simp [dfsList])
      | cons v rest ihl =>
        simp only [dfsList] at h
        split at h
        · rename_i hcond
          rcases ha : dfsAux M k t fuel v vis0 with ⟨b, visA⟩
          rw [ha] at h
          match b, h with
          | true, h =>
            exact Relation.ReflTransGen.head hcond.1 (ih v vis0 ha)
          | false, h =>
            exact ihl visA h
        · exact ihl vis0 h

/-- The DFS only grows the visited set. -/
lemma dfsAux_vis_mono :
    ∀ (fuel : ℕ) (node : Fin n) (vis : Finset (Fin n)) {b vis1},
      dfsAux M k t fuel node vis = (b, vis1) → vis ⊆ vis1 := by
  intro fuel
  induction fuel with
  | zero =>
    intro node vis b vis1 h
    simp only [dfsAux, Prod.mk.injEq] at h
    exact h.2 ▸ Finset.Subset.refl _
  | succ fuel ih =>
    intro node vis b vis1 h
    simp only [dfsAux] at h
    split at h
    · simp only [Prod.mk.injEq] at h
      exact h.2 ▸ Finset.Subset.refl _
    · have key : ∀ (l : List (Fin n)) (vis' : Finset (Fin n)) {b' vis1'},
          dfsList M k (dfsAux M k t fuel) node l vis' = (b', vis1') → vis' ⊆ vis1' := by
        intro l
        induction l with
        | nil =>
          intro vis' b' vis1' h'
          simp only [dfsList, Prod.mk.injEq] at h'
          exact h'.2 ▸ Finset.Subset.refl _
        | cons v rest ihl =>
          intro vis' b' vis1' h'
          simp only [dfsList] at h'
          split at h'
          · rcases ha : dfsAux M k t fuel v vis' with ⟨ba, visA⟩
            rw [ha] at h'
            match ba, h' with
            | true, h' =>
              simp only [Prod.mk.injEq] at h'
              exact h'.2 ▸ ih v vis' ha
            | false, h' =>
              exact Finset.Subset.trans (ih v vis' ha) (ihl visA h')
          · exact ihl vis' h'
      exact Finset.Subset.trans (Finset.subset_insert _ _) (key _ _ h)

/-- The DFS never marks the target visited (the `node == target` test
precedes the marking). -/
lemma dfsAux_target_not_mem :
    ∀ (fuel : ℕ) (node : Fin n) (vis : Finset (Fin n)) {b vis1},
      t ∉ vis → dfsAux M k t fuel node vis = (b, vis1) → t ∉ vis1 := by
  intro fuel
  induction fuel with
  | zero =>
    intro node vis b vis1 ht h
    simp only [dfsAux, Prod.mk.injEq] at h
    exact h.2 ▸ ht
  | succ fuel ih =>
    intro node vis b vis1 ht h
    simp only [dfsAux] at h
    split at h
    · simp only [Prod.mk.injEq] at h
      exact h.2 ▸ ht
    · rename_i hne
      have ht0 : t ∉ insert node vis := by
        simp only [Finset.mem_insert]
        rintro (rfl | h')
        · exact hne rfl
        · exact ht h'
      have key : ∀ (l : List (Fin n)) (vis' : Finset (Fin n)) {b' vis1'},
          t ∉ vis' → dfsList M k (dfsAux M k t fuel) node l vis' = (b', vis1') →
          t ∉ vis1' := by
        intro l
        induction l with
        | nil =>
          intro vis' b' vis1' ht' h'
          simp only [dfsList, Prod.mk.injEq] at h'
          exact h'.2 ▸ ht'
        | cons v rest ihl =>
          intro vis' b' vis1' ht' h'
          simp only [dfsList] at h'
          split at h'
          · rcases ha : dfsAux M k t fuel v vis' with ⟨ba, visA⟩
            rw [ha] at h'
            match ba, h' with
            | true, h' =>
              simp only [Prod.mk.injEq] at h'
              exact h'.2 ▸ ih v vis' ht' ha
            | false, h' =>
              exact ihl visA (ih v vis' ht' ha) h'
          · exact ihl vis' ht' h'
      exact key _ _ ht0 h

/-- Completeness invariant of a failed DFS call: given enough fuel, the
searched node ends up visited and every newly visited node has all its
thresholded successors visited. -/
lemma dfsAux_false :
    ∀ (fuel : ℕ) (node : Fin n) (vis : Finset (Fin n)) {vis1},
      n + 1 ≤ fuel + vis.card → node ∉ vis →
      dfsAux M k t fuel node vis = (false, vis1) →
      node ∈ vis1 ∧ vis ⊆ vis1 ∧
        ∀ u ∈ vis1, u ∉ vis → ∀ w, k ≤ M u w → w ∈ vis1 := by
  intro fuel
  induction fuel with
  | zero =>
    intro node vis vis1 hfuel hnode h
    have : vis.card ≤ n := le_trans (Finset.card_le_univ _) (by simp)
    omega
  | succ fuel ih =>
    intro node vis vis1 hfuel hnode h
    simp only [dfsAux] at h
    split at h
    · exact absurd h (by simp)
    · rename_i hne
      have hcard0 : (insert node vis).card = vis.card + 1 :=
        Finset.card_insert_of_not_mem hnode
      -- the neighbor loop, generalized over a growing visited set
      have key : ∀ (l : List (Fin n)) (vis' : Finset (Fin n)) {vis1'},
          insert node vis ⊆ vis' →
          dfsList M k (dfsAux M k t fuel) node l vis' = (false, vis1') →
          (vis' ⊆ vis1' ∧
            ∀ u ∈ vis1', u ∉ vis' → ∀ w, k ≤ M u w → w ∈ vis1') ∧
          ∀ v ∈ l, k ≤ M node v → v ∈ vis1' := by
        intro l
        induction l with
        | nil =>
          intro vis' vis1' hsub h'
          simp only [dfsList, Prod.mk.injEq] at h'
          refine ⟨⟨h'.2 ▸ Finset.Subset.refl _, ?_⟩, by simp⟩
          intro u hu hu' w
          exact absurd (h'.2 ▸ hu) hu'
        | cons v rest ihl =>
          intro vis' vis1' hsub h'
          simp only [dfsList] at h'
          split at h'
          · rename_i hcond
            rcases ha : dfsAux M k t fuel v vis' with ⟨ba, visA⟩
            rw [ha] at h'
            match ba, h' with
            | true, h' => exact absurd h' (by simp)
            | false, h' =>
              have hfuel' : n + 1 ≤ fuel + vis'.card := by
                have h1 : (insert node vis).card ≤ vis'.card :=
                  Finset.card_le_card hsub
                omega
              obtain ⟨hvA, hsubA, hclA⟩ := ih v vis' hfuel' hcond.2 ha
              obtain ⟨⟨hsubB, hclB⟩, hcov⟩ :=
                ihl visA (Finset.Subset.trans hsub hsubA) h'
              refine ⟨⟨Finset.Subset.trans hsubA hsubB, ?_⟩, ?_⟩
              · intro u hu hu' w hw
                by_cases huA : u ∈ visA
                · exact hsubB (hclA u huA hu' w hw)
                · exact hclB u hu huA w hw
              · intro v' hv' hkv'
                rcases List.mem_cons.mp hv' with rfl | hv''
                · exact hsubB hvA
                · exact hcov v' hv'' hkv'
          · rename_i hcond
            obtain ⟨⟨hsubB, hclB⟩, hcov⟩ := ihl vis' hsub h'
            refine ⟨⟨hsubB, hclB⟩, ?_⟩
            intro v' hv' hkv'
            rcases List.mem_cons.mp hv' with rfl | hv''
            · have : v' ∈ vis' := by
                by_contra hmem
                exact hcond ⟨hkv', hmem⟩
              exact hsubB this
            · exact hcov v' hv'' hkv'
      obtain ⟨⟨hsub1, hcl1⟩, hcov⟩ := key (List.finRange n) (insert node vis)
        (Finset.Subset.refl _) h
      have hnode1 : node ∈ vis1 := hsub1 (Finset.mem_insert_self _ _)
      refine ⟨hnode1, Finset.Subset.trans (Finset.subset_insert _ _) hsub1, ?_⟩
      intro u hu hu' w hw
      by_cases hun : u = node
      · exact hcov w (List.mem_finRange w) (hun ▸ hw)
      · have : u ∉ insert node vis := by
          simp only [Finset.mem_insert]
          rintro (rfl | h')
          · exact hun rfl
          · exact hu' h'
        exact hcl1 u hu this w hw

/-- The DFS oracle decides strong-path existence. -/
theorem has_strong_path_dfs_iff (M : Fin n → Fin n → Int) (s t : Fin n) (k : Int) :
    has_strong_path_dfs M s t k = true ↔ StrongPath M k s t := by
  unfold has_strong_path_dfs
  rcases h : dfsAux M k t (n + 1) s ∅ with ⟨b, visE⟩
  match b with
  | true => exact iff_of_true rfl (dfsAux_fst_true (n + 1) s ∅ h)
  | false =>
    refine iff_of_false (by simp) ?_
    obtain ⟨hsE, _, hcl⟩ := dfsAux_false (n + 1) s ∅ (by simp) (by simp) h
    have htE : t ∉ visE := dfsAux_target_not_mem (n + 1) s ∅ (by simp) h
    intro hsp
    exact htE (mem_of_reach_closed (fun u hu w hw => hcl u hu (by simp) w hw) hsp hsE)

end Dfs

/-! ### Characterization of the defeat evaluator -/

section Evaluator

variable {n : ℕ} {M : Fin n → Fin n → Int} {dfs : Bool} {allc : List (Fin n)}

/-- Membership after the erase-on-disqualification fold. -/
lemma mem_foldl_erase (p : Fin n → Bool) :
    ∀ (l : List (Fin n)) (init : Finset (Fin n)) (x : Fin n),
      (x ∈ l.foldl (fun w a => if p a then w.erase a else w) init) ↔
        x ∈ init ∧ ¬(x ∈ l ∧ p x = true) := by
  intro l
  induction l with
  | nil => simp
  | cons a l ih =>
    intro init x
    rw [List.foldl_cons, ih]
    by_cases hpa : p a = true
    · rw [if_pos hpa]
      by_cases hxa : x = a
      · subst hxa
        simp [hpa, Finset.mem_erase]
      · simp only [Finset.mem_erase, ne_eq, hxa, not_false_eq_true, true_and,
          List.mem_cons]
        tauto
    · rw [if_neg hpa]
      by_cases hxa : x = a
      · subst hxa
        simp only [List.mem_cons, true_or, true_and, hpa]
        tauto
      · simp only [List.mem_cons, hxa, false_or]

/-- The evaluator keeps exactly the considered candidates that no `b`
in `all_candidates` disqualifies. -/
lemma is_splitcycle_winner_eq_filter (considered : List (Fin n)) :
    is_splitcycle_winner allc dfs considered M =
      considered.toFinset.filter fun a => loses_out M dfs allc a = false := by
  ext x
  rw [is_splitcycle_winner, mem_foldl_erase, Finset.mem_filter, List.mem_toFinset]
  constructor
  · rintro ⟨hx, hnot⟩
    refine ⟨hx, ?_⟩
    cases h : loses_out M dfs allc x
    · rfl
    · exact absurd ⟨hx, h⟩ hnot
  · rintro ⟨hx, hfalse⟩
    exact ⟨hx, fun hc => by rw [hfalse] at hc; exact absurd hc.2 (by simp)⟩

/-- The spec-level reading of `loses_out`: no disqualifier exists iff
every opponent in the scan list either does not beat `a` head-to-head
or is reachable from `a` by a strong path at the margin threshold. -/
lemma loses_out_eq_false_iff (a : Fin n) :
    loses_out M dfs allc a = false ↔
      ∀ b ∈ allc, ¬(M a b < 0 ∧ ¬ StrongPath M (-(M a b)) a b) := by
  rw [loses_out, List.any_eq_false]
  refine forall_congr' fun b => ?_
  refine imp_congr_right fun _ => ?_
  rw [Bool.not_eq_true, Bool.and_eq_false_iff]
  constructor
  · rintro (h | h) ⟨hlt, hnsp⟩
    · rw [decide_eq_false_iff_not] at h
      exact h hlt
    · have h' : finder dfs M a b (-(M a b)) = true := by simpa using h
      cases dfs with
      | true => exact hnsp ((has_strong_path_dfs_iff M a b (-(M a b))).mp h')
      | false => exact hnsp ((has_strong_path_iff M a b (-(M a b))).mp h')
  · intro h
    by_cases hlt : M a b < 0
    · right
      have h' : finder dfs M a b (-(M a b)) = true := by
        by_contra hne
        rw [Bool.not_eq_true] at hne
        refine h ⟨hlt, fun hsp => ?_⟩
        cases dfs with
        | true =>
          have hne' : has_strong_path_dfs M a b (-(M a b)) = false := hne
          rw [(has_strong_path_dfs_iff M a b (-(M a b))).mpr hsp] at hne'
          simp at hne'
        | false =>
          have hne' : has_strong_path M a b (-(M a b)) = false := hne
          rw [(has_strong_path_iff M a b (-(M a b))).mpr hsp] at hne'
          simp at hne'
      simp [h']
    · left
      exact decide_eq_false hlt

end Evaluator

/-! ### Characterization of the scheduler -/

section Scheduler

/-- Membership in a left fold of unions. -/
lemma mem_foldl_union {n : ℕ} :
    ∀ (L : List (Finset (Fin n))) (acc : Finset (Fin n)) (x : Fin n),
      x ∈ L.foldl (· ∪ ·) acc ↔ x ∈ acc ∨ ∃ s ∈ L, x ∈ s := by
  intro L
  induction L with
  | nil => simp
  | cons s L ih =>
    intro acc x
    rw [List.foldl_cons, ih]
    simp only [Finset.mem_union, List.mem_cons]
    constructor
    · rintro ((h | h) | ⟨u, hu, hxu⟩)
      · exact Or.inl h
      · exact Or.inr ⟨s, Or.inl rfl, h⟩
      · exact Or.inr ⟨u, Or.inr hu, hxu⟩
    · rintro (h | ⟨u, rfl | hu, hxu⟩)
      · exact Or.inl (Or.inl h)
      · exact Or.inl (Or.inr hxu)
      · exact Or.inr ⟨u, hu, hxu⟩

/-- An element lies in some chunk iff it lies in the first
`sizes.sum` elements of the chunked list. -/
lemma mem_chunks_iff {α : Type} (x : α) :
    ∀ (sizes : List ℕ) (l : List α),
      (∃ piece ∈ chunks l sizes, x ∈ piece) ↔ x ∈ l.take sizes.sum := by
  intro sizes
  induction sizes with
  | nil => simp [chunks]
  | cons s rest ih =>
    intro l
    simp only [chunks, List.mem_cons, List.sum_cons]
    rw [List.take_add, List.mem_append]
    constructor
    · rintro ⟨piece, rfl | hpiece, hx⟩
      · exact Or.inl hx
      · exact Or.inr ((ih (l.drop s)).mp ⟨piece, hpiece, hx⟩)
    · rintro (hx | hx)
      · exact ⟨l.take s, Or.inl rfl, hx⟩
      · obtain ⟨piece, hpiece, hx'⟩ := (ih (l.drop s)).mpr hx
        exact ⟨piece, Or.inr hpiece, hx'⟩

/-- Sum of a balanced size distribution. -/
lemma sum_if_lt (q : ℕ) :
    ∀ (c m : ℕ), ((List.range c).map fun i => if i < m then q + 1 else q).sum =
      c * q + min m c := by
  intro c
  induction c with
  | zero => simp
  | succ c ih =>
    intro m
    rw [List.range_succ, List.map_append, List.sum_append]
    simp only [List.map_cons, List.map_nil, List.sum_cons, List.sum_nil, ih]
    by_cases hcm : c < m
    · rw [if_pos hcm]
      have h1 : min m c = c := by omega
      have h2 : min m (c + 1) = c + 1 := by omega
      rw [h1, h2, Nat.succ_mul]
      omega
    · rw [if_neg hcm]
      have h1 : min m c = m := by omega
      have h2 : min m (c + 1) = m := by omega
      rw [h1, h2, Nat.succ_mul]
      omega

/-- The pool sizes cover all `n` candidates (`cores >= 1`). -/
lemma pool_sizes_sum {n cores : ℕ} (hcores : 1 ≤ cores) :
    (pool_sizes n cores).sum = n := by
  rw [pool_sizes, sum_if_lt]
  have hm : n % cores < cores := Nat.mod_lt _ (by omega)
  have := Nat.div_add_mod n cores
  omega

/-- Every candidate belongs to some work piece. -/
lemma mem_chunks_finRange {n cores : ℕ} (hcores : 1 ≤ cores) (x : Fin n) :
    ∃ piece ∈ chunks (List.finRange n) (pool_sizes n cores), x ∈ piece := by
  rw [mem_chunks_iff, pool_sizes_sum hcores]
  have : (List.finRange n).take n = List.finRange n := by
    rw [List.take_of_length_le (by simp)]
  rw [this]
  exact List.mem_finRange x

/-- Membership in the scheduler's output: with at least one core, a
candidate is returned iff no opponent in the scan list disqualifies
it. -/
lemma splitcycleCore_mem {n : ℕ} (M : Fin n → Fin n → Int)
    (candidates : Option (List (Fin n))) (dfs : Bool) {cores : ℕ}
    (hcores : 1 ≤ cores) (a : Fin n) :
    a ∈ splitcycleCore M candidates dfs cores ↔
      loses_out M dfs (candidates.getD (List.finRange n)) a = false := by
  rw [splitcycleCore]
  simp only [List.mem_filter, List.mem_finRange, true_and, decide_eq_true_eq]
  rw [mem_foldl_union]
  simp only [Finset.not_mem_empty, false_or, List.mem_map]
  constructor
  · rintro ⟨s, ⟨piece, hpiece, rfl⟩, hx⟩
    rw [is_splitcycle_winner_eq_filter, Finset.mem_filter] at hx
    exact hx.2
  · intro h
    obtain ⟨piece, hpiece, hx⟩ := mem_chunks_finRange hcores a
    refine ⟨_, ⟨piece, hpiece, rfl⟩, ?_⟩
    rw [is_splitcycle_winner_eq_filter, Finset.mem_filter, List.mem_toFinset]
    exact ⟨hx, h⟩

end Scheduler

/-! ### Properties of the margin matrix builder -/

section Margins

variable {bm bn : ℕ} (ballots : Fin bm → Fin bn → Int)

/-- Each entry is the net count of ballots preferring `i` to `j`. -/
lemma margins_from_ballots_eq_count (i j : Fin bn) :
    margins_from_ballots ballots i j =
      ((Finset.univ.filter fun b => ballots b i < ballots b j).card : Int) -
        ((Finset.univ.filter fun b => ballots b j < ballots b i).card : Int) := by
  rw [margins_from_ballots]
  have hsplit : ∀ b : Fin bm,
      (if ballots b i - ballots b j < 0 then (1 : Int)
        else if 0 < ballots b i - ballots b j then -1 else 0) =
      (if ballots b i < ballots b j then (1 : Int) else 0) -
        (if ballots b j < ballots b i then (1 : Int) else 0) := by
    intro b
    split_ifs <;> omega
  rw [Finset.sum_congr rfl fun b _ => hsplit b, Finset.sum_sub_distrib,
    Finset.sum_boole, Finset.sum_boole]

/-- Antisymmetry of the built margins. -/
lemma margins_from_ballots_antisymm (i j : Fin bn) :
    margins_from_ballots ballots i j = - margins_from_ballots ballots j i := by
  rw [margins_from_ballots, margins_from_ballots, ← Finset.sum_neg_distrib]
  refine Finset.sum_congr rfl fun b _ => ?_
  split_ifs <;> omega

/-- Zero diagonal of the built margins. -/
lemma margins_from_ballots_diag (i : Fin bn) :
    margins_from_ballots ballots i i = 0 := by
  rw [margins_from_ballots]
  refine Finset.sum_eq_zero fun b _ => ?_
  rw [if_neg (by omega), if_neg (by omega)]

/-- The ballot-derived raw matrix always passes `splitcycle`'s input
validation. -/
lemma marginsMat_margin_like :
    is_margin_like (marginsMat ballots) = true := by
  have hsq : is_square (marginsMat ballots) = true := by
    rw [is_square]
    exact decide_eq_true rfl
  rw [is_margin_like, has_reverse_diagonal_symmetry, has_zero_diagonal, hsq,
    Bool.true_and, Bool.true_and, Bool.and_eq_true, decide_eq_true_eq,
    decide_eq_true_eq]
  constructor
  · intro i hi j hj
    have hi' : i < bn := hi
    have hj' : j < bn := hj
    simp only [marginsMat]
    rw [dif_pos ⟨hi', hj'⟩, dif_pos ⟨hj', hi'⟩]
    exact margins_from_ballots_antisymm ballots _ _
  · intro i hi
    have hi' : i < bn := hi
    simp only [marginsMat]
    rw [dif_pos ⟨hi', hi'⟩]
    exact margins_from_ballots_diag ballots _

end Margins

/-! ### Oracle interchangeability and validation unfolding -/

/-- The two oracle variants agree (each decides `StrongPath`). -/
lemma has_strong_path_eq_dfs {n : ℕ} (M : Fin n → Fin n → Int) (s t : Fin n)
    (k : Int) : has_strong_path M s t k = has_strong_path_dfs M s t k := by
  rw [Bool.eq_iff_iff, has_strong_path_iff, has_strong_path_dfs_iff]

/-- The disqualification test does not depend on the oracle variant. -/
lemma loses_out_dfs_irrel {n : ℕ} (M : Fin n → Fin n → Int) (allc : List (Fin n))
    (a : Fin n) : loses_out M true allc a = loses_out M false allc a := by
  rw [loses_out, loses_out]
  have hfun : (fun b => decide (M a b < 0) && ! finder (n := n) true M a b (-(M a b))) =
      fun b => decide (M a b < 0) && ! finder false M a b (-(M a b)) := by
    funext b
    have hf : finder (n := n) true M a b (-(M a b)) = finder false M a b (-(M a b)) := by
      show has_strong_path_dfs M a b (-(M a b)) = has_strong_path M a b (-(M a b))
      exact (has_strong_path_eq_dfs M a b (-(M a b))).symm
    rw [hf]
  rw [hfun]

/-- Neither does the evaluator. -/
lemma is_splitcycle_winner_dfs_irrel {n : ℕ} (allc considered : List (Fin n))
    (M : Fin n → Fin n → Int) :
    is_splitcycle_winner allc true considered M =
      is_splitcycle_winner allc false considered M := by
  rw [is_splitcycle_winner_eq_filter, is_splitcycle_winner_eq_filter]
  refine Finset.filter_congr fun a _ => ?_
  rw [loses_out_dfs_irrel]

/-- Neither does the scheduler. -/
lemma splitcycleCore_dfs_irrel {n : ℕ} (M : Fin n → Fin n → Int)
    (cand : Option (List (Fin n))) (cores : ℕ) :
    splitcycleCore M cand true cores = splitcycleCore M cand false cores := by
  rw [splitcycleCore, splitcycleCore]
  simp only [is_splitcycle_winner_dfs_irrel]

/-- The validation predicate, unfolded to the three matrix properties. -/
lemma is_margin_like_iff (m : Mat2) :
    is_margin_like m = true ↔
      m.rows = m.cols ∧
        (∀ i < m.rows, ∀ j < m.cols, m.entry i j = -(m.entry j i)) ∧
        ∀ i < m.rows, m.entry i i = 0 := by
  rw [is_margin_like, has_reverse_diagonal_symmetry, has_zero_diagonal, is_square]
  simp only [Bool.and_eq_true, decide_eq_true_eq]
  tauto

/-! ### The claims -/

/-- Claim C1 as stated is false on the code: `splitcycle` passes the
user-supplied candidate subset `C` into the `all_candidates` slot of
the work tuples and partitions the full range `0..n-1` into the
`considered_candidates` slots (`core.py` line 231), so with
`n = 2`, margins `[[0, -1], [1, 0]]` and `C = [0]` it returns
`[0, 1]`, which contains candidate `1` outside `C` (the claim predicts
a subset of `C`, here even the empty set, since candidate `0` loses to
`1` without a cancelling strong path). -/
theorem C1_counterexample_not_subset :
    splitcycleCore twoCandM (some [(0 : Fin 2)]) true 1 = [0, 1] ∧
      ¬ (1 : Fin 2) ∈ [(0 : Fin 2)] := by
  decide

/-- Claim C1, amended to what the code does: for any margin-like input
and any considered subset `C`, the returned list contains exactly the
candidates `a` of the ENTIRE range `0..n-1` for which no `b` in `C`
(not in the full range) satisfies `margins[a, b] < 0` with no strong
path from `a` to `b` at threshold `-margins[a, b]`. -/
theorem C1_splitcycle_winners_characterization {n : ℕ} (M : Fin n → Fin n → Int)
    (C : List (Fin n)) (dfs : Bool) (cores : ℕ) (hcores : 1 ≤ cores) (a : Fin n) :
    a ∈ splitcycleCore M (some C) dfs cores ↔
      ∀ b ∈ C, ¬(M a b < 0 ∧ ¬ StrongPath M (-(M a b)) a b) := by
  rw [splitcycleCore_mem M (some C) dfs hcores a]
  exact loses_out_eq_false_iff a

/-- Witness for the amended C1 at a concrete input. -/
theorem C1_splitcycle_winners_characterization_witness :
    1 ≤ 1 ∧
      ((0 : Fin 2) ∈ splitcycleCore twoCandM (some [(0 : Fin 2)]) true 1 ↔
        ∀ b ∈ [(0 : Fin 2)],
          ¬(twoCandM 0 b < 0 ∧ ¬ StrongPath twoCandM (-(twoCandM 0 b)) 0 b)) :=
  ⟨Nat.le_refl 1,
    C1_splitcycle_winners_characterization twoCandM [0] true 1 (Nat.le_refl 1) 0⟩

/-- Claim C2: for every square matrix, source, target and threshold the
breadth-first and depth-first oracles return the same boolean, and
consequently `splitcycle` returns identical winner lists with
`dfs=True` and `dfs=False` (on every raw matrix, in particular on
every valid margin matrix). -/
theorem C2_oracle_variants_equivalent :
    (∀ (n : ℕ) (M : Fin n → Fin n → Int) (s t : Fin n) (k : Int),
        has_strong_path M s t k = has_strong_path_dfs M s t k) ∧
      ∀ (m : Mat2) (cand : Option (List (Fin m.rows))) (cores : ℕ),
        splitcycle m cand true cores = splitcycle m cand false cores := by
  refine ⟨fun n M s t k => has_strong_path_eq_dfs M s t k, fun m cand cores => ?_⟩
  rw [splitcycle, splitcycle, splitcycleCore_dfs_irrel]

/-- Claim C3: partitioning the candidate range `0..n-1` into the
scheduler's `P` contiguous pieces, evaluating each piece and unioning
the per-piece winner sets gives exactly the single-pass winner set,
for any fixed all-candidates scan set and `1 <= P <= n`. -/
theorem C3_partition_union_eq_single_pass {n : ℕ} (M : Fin n → Fin n → Int)
    (allc : List (Fin n)) (dfs : Bool) (P : ℕ) (h1 : 1 ≤ P) (h2 : P ≤ n) :
    ((chunks (List.finRange n) (pool_sizes n P)).map fun piece =>
        is_splitcycle_winner allc dfs piece M).foldl (· ∪ ·) ∅ =
      is_splitcycle_winner allc dfs (List.finRange n) M := by
  ext x
  rw [mem_foldl_union]
  simp only [Finset.not_mem_empty, false_or, List.mem_map]
  rw [is_splitcycle_winner_eq_filter, Finset.mem_filter, List.mem_toFinset]
  constructor
  · rintro ⟨s, ⟨piece, hpiece, rfl⟩, hx⟩
    rw [is_splitcycle_winner_eq_filter, Finset.mem_filter] at hx
    exact ⟨List.mem_finRange x, hx.2⟩
  · rintro ⟨-, hok⟩
    obtain ⟨piece, hpiece, hx⟩ := mem_chunks_finRange h1 x
    refine ⟨_, ⟨piece, hpiece, rfl⟩, ?_⟩
    rw [is_splitcycle_winner_eq_filter, Finset.mem_filter, List.mem_toFinset]
    exact ⟨hx, hok⟩

/-- Witness for C3 at a concrete input. -/
theorem C3_partition_union_eq_single_pass_witness :
    1 ≤ 2 ∧ 2 ≤ 2 ∧
      ((chunks (List.finRange 2) (pool_sizes 2 2)).map fun piece =>
          is_splitcycle_winner [0, 1] true piece twoCandM).foldl (· ∪ ·) ∅ =
        is_splitcycle_winner [0, 1] true (List.finRange 2) twoCandM :=
  ⟨by decide, by decide,
    C3_partition_union_eq_single_pass twoCandM [0, 1] true 2 (by decide) (by decide)⟩

/-- Claim C4: a Condorcet winner (positive margin over every other
candidate) of a margin-like matrix is always in the returned winner
list, with either search variant. -/
theorem C4_condorcet_winner_in_winners {n : ℕ} (M : Fin n → Fin n → Int)
    (hM : is_margin_likeP M) (w : Fin n) (hw : ∀ x, x ≠ w → 0 < M w x)
    (dfs : Bool) (cores : ℕ) (hcores : 1 ≤ cores) :
    w ∈ splitcycleCore M none dfs cores := by
  rw [splitcycleCore_mem M none dfs hcores w, loses_out_eq_false_iff]
  rintro b hb ⟨hlt, -⟩
  by_cases hbw : b = w
  · subst hbw
    rw [hM.2 b] at hlt
    exact absurd hlt (by omega)
  · exact absurd hlt (by have := hw b hbw; omega)

/-- Witness for C4 at a concrete input. -/
theorem C4_condorcet_winner_in_winners_witness :
    is_margin_likeP condM ∧ (∀ x : Fin 2, x ≠ 0 → 0 < condM 0 x) ∧ 1 ≤ 1 ∧
      (0 : Fin 2) ∈ splitcycleCore condM none true 1 :=
  ⟨⟨by decide, by decide⟩, by decide, Nat.le_refl 1,
    C4_condorcet_winner_in_winners condM ⟨by decide, by decide⟩ 0 (by decide) true 1
      (Nat.le_refl 1)⟩

/-- Claim C5: each entry `M[i, j]` of the built margin matrix is the
number of ballots ranking `i` strictly better (lower) than `j` minus
the number ranking `i` strictly worse. -/
theorem C5_margins_entry_is_net_count {bm bn : ℕ} (ballots : Fin bm → Fin bn → Int)
    (i j : Fin bn) :
    margins_from_ballots ballots i j =
      ((Finset.univ.filter fun b => ballots b i < ballots b j).card : Int) -
        ((Finset.univ.filter fun b => ballots b j < ballots b i).card : Int) :=
  margins_from_ballots_eq_count ballots i j

/-- Claim C6: the built margin matrix is antisymmetric with a zero
diagonal. -/
theorem C6_margins_antisymmetric_zero_diagonal {bm bn : ℕ}
    (ballots : Fin bm → Fin bn → Int) :
    (∀ i j, margins_from_ballots ballots i j = - margins_from_ballots ballots j i) ∧
      ∀ i, margins_from_ballots ballots i i = 0 :=
  ⟨margins_from_ballots_antisymm ballots, margins_from_ballots_diag ballots⟩

/-- Claim C7: `splitcycle` raises (before any search) exactly when the
input matrix violates one of the validated properties: squareness,
reverse diagonal symmetry, zero diagonal (in this embedding a raw
matrix is 2-dimensional by construction, so the not-2-D disjunct of
the claim cannot arise). -/
theorem C7_error_iff_not_margin_like (m : Mat2) (cand : Option (List (Fin m.rows)))
    (dfs : Bool) (cores : ℕ) :
    (∃ e, splitcycle m cand dfs cores = .error e) ↔
      ¬(m.rows = m.cols ∧
        (∀ i < m.rows, ∀ j < m.cols, m.entry i j = -(m.entry j i)) ∧
        ∀ i < m.rows, m.entry i i = 0) := by
  by_cases h : is_margin_like m = true
  · rw [splitcycle, if_pos h]
    refine iff_of_false ?_ ?_
    · rintro ⟨e, he⟩
      exact Except.noConfusion he
    · intro hc
      exact hc (is_margin_like_iff m |>.mp h)
  · rw [splitcycle, if_neg h]
    refine iff_of_true ⟨_, rfl⟩ ?_
    intro hprops
    exact h ((is_margin_like_iff m).mpr hprops)

/-- Claim C8: `elect` fails with the candidate-count-mismatch condition
iff the ballots' candidate axis differs from the number of names
(before building any margins — the spec-modelled
`not_enough_candidates` raises); with matching lengths it builds the
margins (which always validate) and returns the winner names in winner
order. -/
theorem C8_elect_contract {α : Type} [Inhabited α] {bm bn : ℕ}
    (ballots : Fin bm → Fin bn → Int) (names : List α) (dfs : Bool) (cores : ℕ) :
    ((∃ e, elect ballots names dfs cores = .error e) ↔ bn ≠ names.length) ∧
      (bn = names.length →
        elect ballots names dfs cores =
          .ok ((splitcycleCore (toCore (marginsMat ballots)) none dfs cores).map
            fun i => names.getD i.val default)) := by
  have hml := marginsMat_margin_like ballots
  constructor
  · by_cases h : bn = names.length
    · rw [elect, if_pos h]
      refine iff_of_false ?_ (by simp [h])
      rw [splitcycle, if_pos hml]
      rintro ⟨e, he⟩
      simp [Except.map] at he
    · rw [elect, if_neg h]
      exact iff_of_true ⟨_, rfl⟩ h
  · intro h
    rw [elect, if_pos h, splitcycle, if_pos hml]
    rfl

/-- Witness for C8 at a concrete input. -/
theorem C8_elect_contract_witness :
    (2 : ℕ) = [(10 : ℕ), 20].length ∧
      elect exBallots [(10 : ℕ), 20] true 1 =
        .ok ((splitcycleCore (toCore (marginsMat exBallots)) none true 1).map
          fun i => [(10 : ℕ), 20].getD i.val default) :=
  ⟨rfl, (C8_elect_contract exBallots [10, 20] true 1).2 rfl⟩

/-- Claim C9: both strong-path oracles answer true when source equals
target, for every matrix and threshold. -/
theorem C9_self_path_true {n : ℕ} (M : Fin n → Fin n → Int) (x : Fin n) (k : Int) :
    has_strong_path M x x k = true ∧ has_strong_path_dfs M x x k = true := by
  constructor
  · rw [has_strong_path, if_pos rfl]
  · rw [has_strong_path_dfs]
    simp [dfsAux]

/-- Claim C10: the evaluator's result is always a subset of the
considered candidates (it starts from the considered set and only ever
removes elements). -/
theorem C10_winners_subset_considered {n : ℕ} (allc : List (Fin n)) (dfs : Bool)
    (considered : List (Fin n)) (M : Fin n → Fin n → Int) :
    is_splitcycle_winner allc dfs considered M ⊆ considered.toFinset := by
  rw [is_splitcycle_winner_eq_filter]
  exact Finset.filter_subset _ _

end SplitCycle
